import Mathlib

/-!
Verification development for the treebuild repository (two Rust modules:
dependency_tree.rs and drawing.rs), shallowly embedded in Lean.

Modelling conventions:
* Rust String / str values are Lean String values; the character-level
  operations (find, trim, rsplitn, replace) are implemented over List Char
  exactly as the source performs them on ASCII text.
* HashMap String TreeNode is an insertion-ordered association list with
  unique keys (entry().or_insert never duplicates a key); lookup returns the
  first matching entry.  HashSet String is an insertion-ordered duplicate-free
  list; insert appends when the element is absent.
* f32 scalars are rationals, computed exactly; the trigonometric and square
  root primitives are taken as function parameters (the source calls them
  opaquely).  Rational division by zero yields 0 where f32 would yield an
  infinity or NaN; this only affects the satellite radius of a node with no
  children, a value no statement below inspects.
* A Rust panic (unwrap on None, out-of-bounds index, failed assert) is
  modelled by Option: the embedded function returns none exactly where the
  source panics.
-/

namespace Treebuild

/-! ## String primitives used by dependency_tree.rs -/

/-- Digit-run to number, as str::parse::<usize> on an all-digit string. -/
def natOfDigits (ds : List Char) : Nat :=
  ds.foldl (fun acc c => 10 * acc + (c.toNat - 48)) 0

/-- The source line split performed at dependency_tree.rs:48-50: find the
first non-ASCII-digit character (unwrap panics when every character is a
digit), split there, and parse the digit run as usize (unwrap panics when the
run is empty).  none models the panic. -/
def splitDepth (line : String) : Option (Nat × String) :=
  let ds := line.data.takeWhile Char.isDigit
  let rest := line.data.dropWhile Char.isDigit
  if rest = [] then none
  else if ds = [] then none
  else some (natOfDigits ds, String.mk rest)

/-- Index of the first occurrence of the two-character pattern space-then-open
parenthesis, or the length of the list when absent: str::find applied to
the separator before an optional location suffix. -/
def findParenSplit : List Char → Nat
  | [] => 0
  | c :: rest =>
    if c = ' ' ∧ rest.head? = some '(' then 0 else 1 + findParenSplit rest

/-- str::trim on both ends. -/
def strTrim (cs : List Char) : List Char :=
  ((cs.dropWhile Char.isWhitespace).reverse.dropWhile Char.isWhitespace).reverse

/-- rsplitn(2, " "): split at the last space into (before, after); none when
the list contains no space, in which case the source indexes split[1] out of
bounds and panics. -/
def splitLastSpace (cs : List Char) : Option (List Char × List Char) :=
  let r := cs.reverse
  match r.dropWhile (fun c => ¬ c = ' ') with
  | [] => none
  | _ :: beforeR => some (beforeR.reverse, (r.takeWhile (fun c => ¬ c = ' ')).reverse)

/-- dependency_tree.rs:203-208.  Take the part before a space-parenthesis
location suffix, trim it, split on the last space into name and version, drop
a leading letter v from the version, normalize underscores in the name to
hyphens, and join name and version with a space.  none models the split[1]
panic when the trimmed identifier contains no space. -/
def crate_name_from_package_id (pkg_id : String) : Option String :=
  let cs := pkg_id.data
  let stop := findParenSplit cs
  let t := strTrim (cs.take stop)
  match splitLastSpace t with
  | none => none
  | some (before, after) =>
    let version := if after.head? = some 'v' then after.drop 1 else after
    some (String.mk ((before.map fun c => if c = '_' then '-' else c) ++ ' ' :: version))

/-- Split a character list at every line feed. -/
def splitLinesAux : List Char → List Char → List (List Char)
  | [], acc => [acc.reverse]
  | c :: rest, acc =>
    if c = '\n' then acc.reverse :: splitLinesAux rest []
    else splitLinesAux rest (c :: acc)

/-- Remove one trailing carriage return. -/
def stripCR (cs : List Char) : List Char :=
  if cs.getLast? = some '\r' then cs.dropLast else cs

/-- str::lines: split on the line feed, drop a final empty piece produced by a
trailing line feed, and strip one trailing carriage return per line. -/
def linesOf (s : String) : List String :=
  let parts := splitLinesAux s.data []
  let parts := if parts.getLast? = some [] then parts.dropLast else parts
  parts.map fun cs => String.mk (stripCR cs)

/-! ## The tree store (dependency_tree.rs) -/

/-- One resolved dependency node: its identity and the identities of its
children (HashSet String as an insertion-ordered duplicate-free list). -/
structure TreeNode where
  name : String
  children : List String
deriving DecidableEq, Repr

/-- HashMap String TreeNode as an insertion-ordered association list. -/
abbrev NodeMap := List (String × TreeNode)

def mapContains (m : NodeMap) (k : String) : Bool :=
  m.any fun p => p.1 = k

def mapGet (m : NodeMap) (k : String) : Option TreeNode :=
  (m.find? fun p => p.1 = k).map Prod.snd

/-- entry(k).or_insert_with(v): insert only when the key is absent. -/
def mapOrInsert (m : NodeMap) (k : String) (v : TreeNode) : NodeMap :=
  if mapContains m k then m else m ++ [(k, v)]

/-- entry(k).and_modify(f): update the entry when present, otherwise leave the
map unchanged. -/
def mapAndModify (m : NodeMap) (k : String) (f : TreeNode → TreeNode) : NodeMap :=
  m.map fun p => if p.1 = k then (p.1, f p.2) else p

/-- HashMap::insert: replace the entry when present, otherwise append. -/
def mapInsert (m : NodeMap) (k : String) (v : TreeNode) : NodeMap :=
  if mapContains m k then m.map (fun p => if p.1 = k then (k, v) else p)
  else m ++ [(k, v)]

/-- HashSet::insert: append when absent. -/
def hsInsert (l : List String) (x : String) : List String :=
  if x ∈ l then l else l ++ [x]

/-- Collecting a list into a HashSet, modelled as one concrete enumeration:
the fold of hsInsert, which keeps the first occurrence of each element in
insertion order.  The source HashSet guarantees only the SET of collected
elements — its iteration order is arbitrary — so this fixed enumeration is
used only where order does not matter; order-sensitive statements quantify
over the enumeration instead (see buildTreeWith). -/
def hsOfList (l : List String) : List String :=
  l.foldl hsInsert []

/-- The mutable parsing state of DependencyTree::new: the node map, the stack
of currently open ancestor identities (index 0 is the local root, the last
element is the top), and the completed root candidates. -/
structure PState where
  map : NodeMap
  stack : List String
  roots : List String
deriving DecidableEq, Repr

def initState : PState := ⟨[], [], []⟩

/-- One iteration of the line loop of DependencyTree::new
(dependency_tree.rs:39-85).  none models a panic (all-digit or digit-free
line start, or an identifier without a space). -/
def stepLine (s : PState) (line : String) : Option PState :=
  if line.length = 0 then
    -- blank project separator: truncate(1) then pop the local root
    some { s with stack := [], roots := s.roots ++ s.stack.take 1 }
  else
    match splitDepth line with
    | none => none
    | some (depth, rest) =>
      if depth > s.stack.length then
        -- orphaned continuation, skipped
        some s
      else
        match crate_name_from_package_id rest with
        | none => none
        | some dep =>
          if s.stack.isEmpty && mapContains s.map dep then
            -- repeated project root: record it without descending
            some { s with roots := s.roots ++ [dep] }
          else
            let stack1 := s.stack.take depth
            if dep ∈ stack1 then
              -- cycle guard: pretend the dependency does not exist
              some { s with stack := stack1 }
            else
              let map1 := mapOrInsert s.map dep ⟨dep, []⟩
              let map2 :=
                match stack1.getLast? with
                | some parent =>
                  mapAndModify map1 parent fun n =>
                    { n with children := hsInsert n.children dep }
                | none => map1
              some { map := map2, stack := stack1 ++ [dep], roots := s.roots }

/-- The whole line loop. -/
def runLines (s : PState) : List String → Option PState
  | [] => some s
  | l :: ls =>
    match stepLine s l with
    | none => none
    | some s2 => runLines s2 ls

/-- The root candidates left after the loop and the final flush
(dependency_tree.rs:87-88). -/
def finalRoots (ls : List String) : Option (List String) :=
  (runLines initState ls).map fun s => s.roots ++ s.stack.take 1

/-- DependencyTree::new after the external process has succeeded: run the
line loop on the given lines, flush the last open root, assert at least one
root candidate, and either take the single root or synthesize a workspace
node over all distinct candidates (dependency_tree.rs:35-107).  The result is
the designated root name and the node map; none models a panic.  The
children of the synthesized workspace node come from
roots.drain(..).collect::<HashSet<String>>(), whose iteration order the
source leaves arbitrary; the enumeration produced by that collect is
therefore a parameter here (constrained, where a statement needs it, to a
duplicate-free list of exactly the drained elements), just as the opaque f32
primitives are parameters of the layout functions. -/
def buildTreeWith (collect : List String → List String) (ls : List String) :
    Option (String × NodeMap) :=
  match runLines initState ls with
  | none => none
  | some s =>
    let roots := s.roots ++ s.stack.take 1
    match roots with
    | [] => none  -- assert!(!roots.is_empty()) panics
    | [r] => some (r, s.map)
    | _ =>
      let m := mapInsert s.map "workspace" ⟨"workspace", collect roots⟩
      some ("workspace", m)

/-- buildTreeWith at the fixed default enumeration hsOfList.  Statements that
never look at the order of the workspace children use this form; none of
their conclusions depend on which admissible enumeration is plugged in. -/
def buildTree (ls : List String) : Option (String × NodeMap) :=
  buildTreeWith hsOfList ls

/-! ## Read-only views and the child iterator (dependency_tree.rs:129-201) -/

/-- A Dependency view: the borrowed node (the shared map reference is passed
separately to the operations that need it). -/
structure Dependency where
  name : String
  children : List String
deriving DecidableEq, Repr

/-- DependencyTree::get. -/
def treeGet (m : NodeMap) (name : String) : Option Dependency :=
  (mapGet m name).map fun n => ⟨n.name, n.children⟩

/-- DependencyIterator: the parent view, the remaining children, and the
number of children yielded so far. -/
structure DependencyIterator where
  node : Dependency
  iter : List String
  index : Nat
deriving DecidableEq, Repr

/-- IntoIterator for Dependency: iterate over the children from the start. -/
def intoIter (d : Dependency) : DependencyIterator :=
  ⟨d, d.children, 0⟩

/-- DependencyIterator::index: none before the first yield, otherwise the
internal counter minus one. -/
def DependencyIterator.indexVal (it : DependencyIterator) : Option Nat :=
  if it.index = 0 then none else some (it.index - 1)

/-- DependencyIterator::len: the parent node child count. -/
def DependencyIterator.lenVal (it : DependencyIterator) : Nat :=
  it.node.children.length

/-- Iterator::next (dependency_tree.rs:190-200).  The outer Option is
exhaustion; the inner Option models the unguarded map index, which panics
when the child name is absent from the map. -/
def iterNext (m : NodeMap) (it : DependencyIterator) :
    Option (Option Dependency × DependencyIterator) :=
  match it.iter with
  | [] => none
  | dep :: rest =>
    some (treeGet m dep, ⟨it.node, rest, it.index + 1⟩)

/-- Call next k times, stopping on exhaustion. -/
def iterAdvance (m : NodeMap) (it : DependencyIterator) : Nat → DependencyIterator
  | 0 => it
  | k + 1 =>
    match iterNext m it with
    | none => it
    | some (_, it2) => iterAdvance m it2 k

/-! ## Reachability in the built children relation (for the cycle claims) -/

/-- The children recorded for a name, empty when absent. -/
def childrenOf (m : NodeMap) (k : String) : List String :=
  ((mapGet m k).map TreeNode.children).getD []

/-- b is reachable from a through one or more child edges using paths of at
most fuel edges. -/
def transChild (m : NodeMap) : Nat → String → String → Bool
  | 0, _, _ => false
  | fuel + 1, a, b =>
    (childrenOf m a).any fun c => c = b || transChild m fuel c b

/-- Whether a built tree contains a node that is its own transitive child. -/
def hasTransSelfChild (o : Option (String × NodeMap)) : Bool :=
  match o with
  | none => false
  | some (_, m) => m.any fun p => transChild m m.length p.1 p.1

/-- A five-line single-project input whose fourth and fifth lines repeat
identities at different stack positions. -/
def cycInput : List String :=
  ["0 r v1", "1 a v1", "2 b v1", "1 b v1", "2 a v1"]

/-! ## The radial layout engine (drawing.rs) -/

/-- Screen points: f32 pairs, modelled over the rationals. -/
abbrev Point := ℚ × ℚ

/-- RGB colors, channels are u8 values. -/
abbrev Color := Nat × Nat × Nat

/-- The exact value of the f32 constant std::f32::consts::PI. -/
def PI32 : ℚ := 13176795 / 4194304

/-- Modelled from the spec: the node type of the parse_cargo_tree_output
module, which is not among the given sources; drawing.rs reads its fields
name, color and children (a sequence of shared node handles), and section 3
of the spec gives the same shape. -/
inductive DrawTreeNode where
  | mk (name : String) (color : Color) (children : List DrawTreeNode)

def DrawTreeNode.name : DrawTreeNode → String
  | .mk n _ _ => n

def DrawTreeNode.color : DrawTreeNode → Color
  | .mk _ c _ => c

def DrawTreeNode.children : DrawTreeNode → List DrawTreeNode
  | .mk _ _ cs => cs

/-- drawing.rs:6-45.  The per-child angular step is sky divided by the child
count; satellite idx sits at the ceiling of half of idx steps from the
center angle, the sign given by zipping with the cycled pair one, minus one
(so the even ordinals, ordinal 0 included, take the plus sign); each
satellite point is the center displaced by in_radius along the angle.  The
first component is the child radius: 70 percent of the parent radius when the
step exceeds PI32, otherwise the minimum of that and the chord formula. -/
def get_satellites (cosf sinf sqrtf : ℚ → ℚ) (center : Point)
    (root_radius in_radius : ℚ) (amount : Nat) (phase sky : ℚ) :
    ℚ × List (Point × ℚ) :=
  let diff_angle := sky / (amount : ℚ)
  (if diff_angle > PI32 then root_radius * (7 / 10)
   else
     min (in_radius * sqrtf 2 * sqrtf (1 - cosf diff_angle) / 2)
       (root_radius * (7 / 10)),
   (List.range amount).map fun (idx : Nat) =>
     let alternating_idx : ℚ :=
       ((⌈(idx : ℚ) / 2⌉ * (if idx % 2 = 0 then 1 else -1) : ℤ) : ℚ)
     let angle := phase + alternating_idx * diff_angle
     ((center.1 + cosf angle * in_radius, center.2 + sinf angle * in_radius),
      angle))

/-- One circle-draw record. -/
structure DrawCrate where
  center : Point
  radius : ℚ
  color : Color
  name : String
  tree : DrawTreeNode

/-- One edge-line record. -/
structure DrawLine where
  p1 : Point
  p2 : Point
  color : Color

/-- The Rust saturating cast from f32 to u8: truncate toward zero and clamp
into 0..255. -/
def f32_as_u8 (q : ℚ) : Nat :=
  if q < 0 then 0 else min 255 (⌊q⌋).toNat

/-- The color expression of the circle-draw record pushed at
drawing.rs:78-104: the channel-wise blend from the lower toward the higher of
base and highlight when the name is active, the fixed highlight color when
completed, and the base color otherwise. -/
def node_color (name : String) (color : Color) (completed active : List String)
    (transition : ℚ) : Color :=
  if name ∈ active then
    let base_r := min color.1 0x98
    let base_g := min color.2.1 0xfb
    let base_b := min color.2.2 0x98
    let diff_r := max color.1 0x98 - base_r
    let diff_g := max color.2.1 0xfb - base_g
    let diff_b := max color.2.2 0x98 - base_b
    (min 255 (base_r + f32_as_u8 ((diff_r : ℚ) * transition)),
     min 255 (base_g + f32_as_u8 ((diff_g : ℚ) * transition)),
     min 255 (base_b + f32_as_u8 ((diff_b : ℚ) * transition)))
  else if name ∈ completed then (0x98, 0xfb, 0x98)
  else color

mutual

/-- drawing.rs:61-173.  Emits the node circle first (blending its color
toward the highlight color when active, replacing it when completed), then
recurses over the satellite placements of the children. -/
def draw_tree (cosf sinf sqrtf : ℚ → ℚ) (center : Point) (tree : DrawTreeNode)
    (radius phase : ℚ) (depth : Nat) (sky phase_accum : ℚ) (color : Color)
    (completed active : List String) (transition : ℚ) :
    List DrawCrate × List DrawLine :=
  let selfColor : Color := node_color tree.name color completed active transition
  let res := get_satellites cosf sinf sqrtf center radius (radius * 2)
    tree.children.length (phase + phase_accum) sky
  let rest := draw_sats cosf sinf sqrtf center radius res.1 depth phase_accum
    completed active transition res.2 tree.children
  (⟨center, radius, selfColor, tree.name, tree⟩ :: rest.1, rest.2)
termination_by sizeOf tree
decreasing_by
  cases tree with
  | mk n c cs => simp [DrawTreeNode.children]

/-- The for_each body over the zipped satellites and children inside
draw_tree (drawing.rs:117-170), with the two zipped lists kept separate. -/
def draw_sats (cosf sinf sqrtf : ℚ → ℚ) (center : Point) (radius new_radius : ℚ)
    (depth : Nat) (phase_accum : ℚ) (completed active : List String)
    (transition : ℚ) :
    List (Point × ℚ) → List DrawTreeNode → List DrawCrate × List DrawLine
  | [], _ => ([], [])
  | _ :: _, [] => ([], [])
  | (point, point_phase) :: sats, child :: restc =>
    let child_center : Point :=
      if child.children.length < 5 then point
      else
        (point.1 + new_radius * cosf point_phase * (3 / 2),
         point.2 + new_radius * sinf point_phase * (3 / 2))
    let child_sky : ℚ :=
      if child.children.length < 5 then PI32 / 2 else PI32 * (3 / 2)
    let sub := draw_tree cosf sinf sqrtf child_center child new_radius
      point_phase (depth + 1) child_sky phase_accum child.color completed
      active transition
    let line_start : Point :=
      (center.1 + cosf point_phase * radius,
       center.2 + sinf point_phase * radius)
    let line_end : Point :=
      (child_center.1 - cosf point_phase * new_radius,
       child_center.2 - sinf point_phase * new_radius)
    let rest := draw_sats cosf sinf sqrtf center radius new_radius depth
      phase_accum completed active transition sats restc
    (sub.1 ++ rest.1, (⟨line_start, line_end, (255, 255, 255)⟩ :: sub.2) ++ rest.2)
termination_by _sats childs => sizeOf childs
decreasing_by
  all_goals simp
  all_goals omega

end

/-! ## Invariants of the parser state -/

/-- Every key of the map contains a space (every key is an identity produced
by crate_name_from_package_id, which joins name and version with a space). -/
def SpacedKeys (m : NodeMap) : Prop :=
  ∀ p ∈ m, ' ' ∈ p.1.data

/-- Every entry is keyed by its node name and no node lists itself as its own
child. -/
def GoodNodes (m : NodeMap) : Prop :=
  ∀ p ∈ m, p.2.name = p.1 ∧ p.1 ∉ p.2.children

/-- Every name appearing in a children set is a key of the map. -/
def ClosedMap (m : NodeMap) : Prop :=
  ∀ p ∈ m, ∀ c ∈ p.2.children, mapContains m c = true

/-- The combined parser-state invariant. -/
def InvState (s : PState) : Prop :=
  SpacedKeys s.map ∧ GoodNodes s.map ∧ ClosedMap s.map ∧
    (∀ x ∈ s.stack, mapContains s.map x = true) ∧
    (∀ x ∈ s.roots, mapContains s.map x = true)

/-! ## Concrete inputs and values used by closed statements -/

/-- The concrete input of the spec scenario with one root and two leaves. -/
def exInput : String := "0 foo v1.0.0\n1 bar v2.0.0\n1 baz v0.3.0"

/-- A two-project workspace input. -/
def twoRootInput : List String := ["0 a v1", "", "0 b v1"]

/-- An admissible enumeration of a collected HashSet that reverses the
first-insertion order: still duplicate-free with the same elements, and the
source HashSet could iterate in this order as well as in any other. -/
def revEnum (l : List String) : List String :=
  (hsOfList l).reverse

/-- A parser state holding one open ancestor, used to exercise the cycle
guard on a concrete line. -/
def oneNodeState : PState :=
  ⟨[("a 1", ⟨"a 1", []⟩)], ["a 1"], []⟩

/-- The zero function, standing in for the trigonometric and square root
primitives in closed statements that do not depend on them. -/
def zeroFn : ℚ → ℚ := fun _ => 0

/-- The identity function, standing in for the trigonometric and square root
primitives in closed statements that must observe their argument. -/
def idFn : ℚ → ℚ := fun q => q

/-- Default circle record used with List.getD and List.headD. -/
def dummyCrate : DrawCrate := ⟨(0, 0), 0, (0, 0, 0), "", .mk "" (0, 0, 0) []⟩

/-- Default satellite entry used with List.getD. -/
def dummySat : Point × ℚ := ((0, 0), 0)

/-- A childless node. -/
def leafG1 : DrawTreeNode := .mk "g1" (1, 1, 1) []

/-- A second childless node. -/
def leafG2 : DrawTreeNode := .mk "g2" (2, 2, 2) []

/-- A node with two children. -/
def nodeC : DrawTreeNode := .mk "c" (3, 3, 3) [leafG1, leafG2]

/-- A node whose single child has two children of its own. -/
def nodeP : DrawTreeNode := .mk "p" (4, 4, 4) [nodeC]

/-! ## Lemmas about the map and set operations -/

theorem mapContains_iff {m : NodeMap} {k : String} :
    mapContains m k = true ↔ ∃ p ∈ m, p.1 = k := by
  simp [mapContains]

theorem mapGet_isSome_eq (m : NodeMap) (k : String) :
    (mapGet m k).isSome = mapContains m k := by
  induction m with
  | nil => rfl
  | cons p rest ih =>
    by_cases h : p.1 = k <;> simp [mapGet, mapContains, List.find?, h] <;>
      simpa [mapGet, mapContains] using ih

theorem mapContains_mapOrInsert_of (m : NodeMap) (k x : String) (v : TreeNode)
    (h : mapContains m x = true) : mapContains (mapOrInsert m k v) x = true := by
  unfold mapOrInsert
  split
  · exact h
  · unfold mapContains at h ⊢
    rw [List.any_append, h]
    rfl

theorem mapContains_mapOrInsert_self (m : NodeMap) (k : String) (v : TreeNode) :
    mapContains (mapOrInsert m k v) k = true := by
  unfold mapOrInsert
  split
  · assumption
  · unfold mapContains
    rw [List.any_append]
    simp

theorem mem_mapOrInsert {m : NodeMap} {k : String} {v : TreeNode} {p} :
    p ∈ mapOrInsert m k v → p ∈ m ∨ p = (k, v) := by
  unfold mapOrInsert
  split
  · exact Or.inl
  · intro h
    simpa using h

theorem mapContains_mapAndModify (m : NodeMap) (k x : String) (f : TreeNode → TreeNode) :
    mapContains (mapAndModify m k f) x = mapContains m x := by
  induction m with
  | nil => rfl
  | cons p rest ih =>
    simp only [mapAndModify, List.map_cons, mapContains, List.any_cons] at ih ⊢
    congr 1
    by_cases h : p.1 = k <;> simp [h]

theorem mem_mapAndModify {m : NodeMap} {k : String} {f : TreeNode → TreeNode} {p} :
    p ∈ mapAndModify m k f →
      ∃ q ∈ m, (q.1 ≠ k ∧ p = q) ∨ (q.1 = k ∧ p = (q.1, f q.2)) := by
  unfold mapAndModify
  intro h
  rcases List.mem_map.1 h with ⟨q, hq, he⟩
  refine ⟨q, hq, ?_⟩
  by_cases hk : q.1 = k
  · right
    exact ⟨hk, by rw [← he, if_pos hk]⟩
  · left
    exact ⟨hk, by rw [← he, if_neg hk]⟩

theorem mem_hsInsert {l : List String} {x y : String} :
    x ∈ hsInsert l y ↔ x ∈ l ∨ x = y := by
  unfold hsInsert
  split
  · next h => exact ⟨Or.inl, fun hx => hx.elim id fun e => e ▸ h⟩
  · simp

theorem hsOfList_aux_subset (l : List String) :
    ∀ acc x, x ∈ l.foldl hsInsert acc → x ∈ acc ∨ x ∈ l := by
  induction l with
  | nil => exact fun acc x h => Or.inl h
  | cons a rest ih =>
    intro acc x h
    rcases ih (hsInsert acc a) x h with h2 | h2
    · rcases mem_hsInsert.1 h2 with h3 | h3
      · exact Or.inl h3
      · exact Or.inr (h3 ▸ List.mem_cons_self a rest)
    · exact Or.inr (List.mem_cons_of_mem a h2)

theorem mem_hsOfList {l : List String} {x : String} (h : x ∈ hsOfList l) :
    x ∈ l := by
  rcases hsOfList_aux_subset l [] x h with h2 | h2
  · cases h2
  · exact h2

theorem hsOfList_aux_nodup (l : List String) :
    ∀ acc, (∀ a ∈ l, a ∉ acc) → l.Nodup → l.foldl hsInsert acc = acc ++ l := by
  induction l with
  | nil => simp
  | cons a rest ih =>
    intro acc hdisj hnd
    have ha : a ∉ acc := hdisj a (List.mem_cons_self a rest)
    have h1 : hsInsert acc a = acc ++ [a] := by
      unfold hsInsert
      rw [if_neg ha]
    show (rest.foldl hsInsert (hsInsert acc a)) = acc ++ a :: rest
    rw [h1, ih (acc ++ [a]) ?_ (List.Nodup.of_cons hnd)]
    · simp
    · intro b hb
      simp only [List.mem_append, List.mem_singleton]
      rintro (hb2 | rfl)
      · exact hdisj b (List.mem_cons_of_mem a hb) hb2
      · exact (List.nodup_cons.1 hnd).1 hb

theorem hsOfList_eq_self {l : List String} (h : l.Nodup) : hsOfList l = l := by
  unfold hsOfList
  rw [hsOfList_aux_nodup l [] (by simp) h]
  simp

theorem crate_name_space {r dep : String}
    (h : crate_name_from_package_id r = some dep) : ' ' ∈ dep.data := by
  simp only [crate_name_from_package_id] at h
  rcases hs : splitLastSpace (strTrim (List.take (findParenSplit r.data) r.data)) with
    _ | ⟨before, after⟩ <;> rw [hs] at h
  · cases h
  · cases h
    simp

theorem SpacedKeys_mapOrInsert {m : NodeMap} {dep : String} {v : TreeNode}
    (hsp : SpacedKeys m) (hspace : ' ' ∈ dep.data) :
    SpacedKeys (mapOrInsert m dep v) := by
  intro p hp
  rcases mem_mapOrInsert hp with hp | rfl
  · exact hsp p hp
  · exact hspace

theorem GoodNodes_mapOrInsert_leaf {m : NodeMap} {dep : String}
    (hgood : GoodNodes m) :
    GoodNodes (mapOrInsert m dep ⟨dep, []⟩) := by
  intro p hp
  rcases mem_mapOrInsert hp with hp | rfl
  · exact hgood p hp
  · exact ⟨rfl, by simp⟩

theorem ClosedMap_mapOrInsert_leaf {m : NodeMap} {dep : String}
    (hclosed : ClosedMap m) :
    ClosedMap (mapOrInsert m dep ⟨dep, []⟩) := by
  intro p hp c hc
  rcases mem_mapOrInsert hp with hp | rfl
  · exact mapContains_mapOrInsert_of m dep c ⟨dep, []⟩ (hclosed p hp c hc)
  · cases hc

/-- The invariant holds for the state produced by the insertion branch of the
line loop (a fresh non-cyclic dependency line). -/
theorem insert_branch_inv (m : NodeMap) (stack1 roots : List String) (dep : String)
    (hsp : SpacedKeys m) (hgood : GoodNodes m) (hclosed : ClosedMap m)
    (hstack : ∀ x ∈ stack1, mapContains m x = true)
    (hroots : ∀ x ∈ roots, mapContains m x = true)
    (hspace : ' ' ∈ dep.data)
    (hdep : dep ∉ stack1) :
    InvState ⟨(match stack1.getLast? with
      | some parent =>
        mapAndModify (mapOrInsert m dep ⟨dep, []⟩) parent fun n =>
          { n with children := hsInsert n.children dep }
      | none => mapOrInsert m dep ⟨dep, []⟩), stack1 ++ [dep], roots⟩ := by
  have hsp1 : SpacedKeys (mapOrInsert m dep ⟨dep, []⟩) :=
    SpacedKeys_mapOrInsert hsp hspace
  have hgood1 : GoodNodes (mapOrInsert m dep ⟨dep, []⟩) :=
    GoodNodes_mapOrInsert_leaf hgood
  have hclosed1 : ClosedMap (mapOrInsert m dep ⟨dep, []⟩) :=
    ClosedMap_mapOrInsert_leaf hclosed
  have hmono : ∀ x, mapContains m x = true →
      mapContains (mapOrInsert m dep ⟨dep, []⟩) x = true :=
    fun x => mapContains_mapOrInsert_of m dep x ⟨dep, []⟩
  have hself : mapContains (mapOrInsert m dep ⟨dep, []⟩) dep = true :=
    mapContains_mapOrInsert_self m dep ⟨dep, []⟩
  split
  case _ parent hgl =>
    dsimp only [InvState]
    have hparent : parent ∈ stack1 := List.mem_of_mem_getLast? hgl
    have hpd : parent ≠ dep := fun he => hdep (he ▸ hparent)
    have hcont2 : ∀ x, mapContains (mapAndModify (mapOrInsert m dep ⟨dep, []⟩)
        parent fun n => { n with children := hsInsert n.children dep }) x =
        mapContains (mapOrInsert m dep ⟨dep, []⟩) x :=
      fun x => mapContains_mapAndModify _ parent x _
    refine ⟨?_, ?_, ?_, ?_, ?_⟩
    · intro p hp
      rcases mem_mapAndModify hp with ⟨q, hq, ⟨-, he⟩ | ⟨-, he⟩⟩ <;> subst he
      · exact hsp1 _ hq
      · exact hsp1 q hq
    · intro p hp
      rcases mem_mapAndModify hp with ⟨q, hq, ⟨-, he⟩ | ⟨hqk, he⟩⟩ <;> subst he
      · exact hgood1 _ hq
      · refine ⟨(hgood1 q hq).1, ?_⟩
        intro hmem
        rcases mem_hsInsert.1 hmem with hmem | hmem
        · exact (hgood1 q hq).2 hmem
        · exact hpd (hqk ▸ hmem)
    · intro p hp c hc
      rw [hcont2]
      rcases mem_mapAndModify hp with ⟨q, hq, ⟨-, he⟩ | ⟨-, he⟩⟩ <;> subst he
      · exact hclosed1 _ hq c hc
      · rcases mem_hsInsert.1 hc with hc2 | hc2
        · exact hclosed1 q hq c hc2
        · rw [hc2]
          exact hself
    · intro x hx
      rw [hcont2]
      rcases List.mem_append.1 hx with hx | hx
      · exact hmono x (hstack x hx)
      · rw [List.mem_singleton.1 hx]
        exact hself
    · intro x hx
      rw [hcont2]
      exact hmono x (hroots x hx)
  case _ hgl =>
    dsimp only [InvState]
    refine ⟨hsp1, hgood1, hclosed1, ?_, fun x hx => hmono x (hroots x hx)⟩
    intro x hx
    rcases List.mem_append.1 hx with hx | hx
    · exact hmono x (hstack x hx)
    · rw [List.mem_singleton.1 hx]
      exact hself

/-- stepLine preserves the parser-state invariant. -/
theorem stepLine_inv {s s2 : PState} {l : String} (hinv : InvState s)
    (h : stepLine s l = some s2) : InvState s2 := by
  obtain ⟨hsp, hgood, hclosed, hstack, hroots⟩ := hinv
  unfold stepLine at h
  split at h
  · -- blank separator line
    cases h
    dsimp only [InvState]
    refine ⟨hsp, hgood, hclosed, by simp, ?_⟩
    intro x hx
    rcases List.mem_append.1 hx with hx | hx
    · exact hroots x hx
    · exact hstack x (List.take_subset 1 s.stack hx)
  · split at h
    · cases h
    · rename_i depth rest hsd
      split at h
      · -- orphaned continuation, state unchanged
        cases h
        exact ⟨hsp, hgood, hclosed, hstack, hroots⟩
      · split at h
        · cases h
        · rename_i dep hcn
          split at h
          · -- repeated project root shortcut
            rename_i hcond
            cases h
            dsimp only [InvState]
            refine ⟨hsp, hgood, hclosed, hstack, ?_⟩
            intro x hx
            rcases List.mem_append.1 hx with hx | hx
            · exact hroots x hx
            · rw [List.mem_singleton.1 hx]
              have hc2 : s.stack.isEmpty = true ∧ mapContains s.map dep = true := by
                simpa using hcond
              exact hc2.2
          · dsimp only at h
            split at h
            · -- cycle guard: truncated stack only
              cases h
              dsimp only [InvState]
              refine ⟨hsp, hgood, hclosed, ?_, hroots⟩
              intro x hx
              exact hstack x (List.take_subset depth s.stack hx)
            · -- fresh dependency insertion
              rename_i hdep
              cases h
              exact insert_branch_inv s.map (s.stack.take depth) s.roots dep
                hsp hgood hclosed
                (fun x hx => hstack x (List.take_subset depth s.stack hx))
                hroots (crate_name_space hcn) hdep

/-- runLines preserves the parser-state invariant. -/
theorem runLines_inv {ls : List String} {s s2 : PState} (hinv : InvState s)
    (h : runLines s ls = some s2) : InvState s2 := by
  induction ls generalizing s with
  | nil =>
    cases h
    exact hinv
  | cons l rest ih =>
    unfold runLines at h
    rcases hst : stepLine s l with _ | s3 <;> rw [hst] at h
    · cases h
    · exact ih (stepLine_inv hinv hst) h

theorem initState_inv : InvState initState := by
  refine ⟨?_, ?_, ?_, ?_, ?_⟩ <;> intro x hx <;> cases hx

theorem mapContains_append_of (m q : NodeMap) (x : String)
    (h : mapContains m x = true) : mapContains (m ++ q) x = true := by
  unfold mapContains at h ⊢
  rw [List.any_append, h]
  rfl

theorem mapContains_workspace_false {m : NodeMap} (hsp : SpacedKeys m) :
    mapContains m "workspace" = false := by
  rcases hws : mapContains m "workspace" with _ | _
  · rfl
  · rcases mapContains_iff.1 hws with ⟨p, hp, he⟩
    have := hsp p hp
    rw [he] at this
    cases (by decide : ¬ ' ' ∈ "workspace".data) this

theorem mapGet_append_self {m : NodeMap} {k : String} {v : TreeNode}
    (h : mapContains m k = false) : mapGet (m ++ [(k, v)]) k = some v := by
  induction m with
  | nil => simp [mapGet, List.find?]
  | cons p rest ih =>
    unfold mapContains at h
    rw [List.any_cons] at h
    have h1 : (decide (p.1 = k)) = false := by
      rcases hd : (decide (p.1 = k) : Bool) with _ | _
      · rfl
      · rw [hd] at h
        cases h
    have h2 : mapContains rest k = false := by
      rcases hd : mapContains rest k with _ | _
      · rfl
      · unfold mapContains at hd
        rw [h1, hd] at h
        cases h
    unfold mapGet
    rw [List.cons_append, List.find?]
    rw [h1]
    exact ih h2

/-- The map, the root-candidate store and the designated root of a
successfully built tree satisfy the key invariants, for every enumeration of
the workspace children that only produces drained root candidates. -/
theorem buildTreeWith_good {collect : List String → List String}
    {ls : List String} {root : String} {m : NodeMap}
    (hc : ∀ l x, x ∈ collect l → x ∈ l)
    (h : buildTreeWith collect ls = some (root, m)) :
    mapContains m root = true ∧ GoodNodes m ∧ ClosedMap m := by
  unfold buildTreeWith at h
  split at h
  · cases h
  · rename_i s hrun
    have hinv := runLines_inv initState_inv hrun
    obtain ⟨hsp, hgood, hclosed, hstack, hroots⟩ := hinv
    have hall : ∀ x ∈ s.roots ++ s.stack.take 1, mapContains s.map x = true := by
      intro x hx
      rcases List.mem_append.1 hx with hx | hx
      · exact hroots x hx
      · exact hstack x (List.take_subset 1 s.stack hx)
    dsimp only at h
    split at h
    · cases h
    · -- a single root candidate
      rename_i r hr
      cases h
      refine ⟨?_, hgood, hclosed⟩
      exact hall root (by rw [hr]; exact List.mem_singleton_self root)
    · -- multiple root candidates: the workspace node is synthesized
      have hws : mapContains s.map "workspace" = false :=
        mapContains_workspace_false hsp
      have hins : mapInsert s.map "workspace"
          ⟨"workspace", collect (s.roots ++ s.stack.take 1)⟩ =
          s.map ++ [("workspace", ⟨"workspace", collect (s.roots ++ s.stack.take 1)⟩)] := by
        unfold mapInsert
        rw [hws]
        rfl
      cases h
      rw [hins]
      refine ⟨?_, ?_, ?_⟩
      · unfold mapContains
        rw [List.any_append]
        simp
      · intro p hp
        rcases List.mem_append.1 hp with hp | hp
        · exact hgood p hp
        · rw [List.mem_singleton.1 hp]
          refine ⟨rfl, ?_⟩
          intro hmem
          have h2 : "workspace" ∈ s.roots ++ s.stack.take 1 := hc _ _ hmem
          have h3 := hall _ h2
          rw [hws] at h3
          cases h3
      · intro p hp c hc2
        rcases List.mem_append.1 hp with hp | hp
        · exact mapContains_append_of _ _ _ (hclosed p hp c hc2)
        · rw [List.mem_singleton.1 hp] at hc2
          exact mapContains_append_of _ _ _ (hall c (hc _ _ hc2))

/-- buildTreeWith_good at the default enumeration. -/
theorem buildTree_good {ls : List String} {root : String} {m : NodeMap}
    (h : buildTree ls = some (root, m)) :
    mapContains m root = true ∧ GoodNodes m ∧ ClosedMap m :=
  buildTreeWith_good (fun _ _ hx => mem_hsOfList hx) h

theorem mapGet_replace_self {m : NodeMap} {k : String} {v : TreeNode}
    (h : mapContains m k = true) :
    mapGet (m.map fun p => if p.1 = k then (k, v) else p) k = some v := by
  induction m with
  | nil => cases h
  | cons p rest ih =>
    by_cases hp : p.1 = k
    · simp [mapGet, List.find?, hp]
    · have h2 : mapContains rest k = true := by
        unfold mapContains at h ⊢
        rw [List.any_cons] at h
        have hd : (decide (p.1 = k)) = false := by simp [hp]
        rw [hd, Bool.false_or] at h
        exact h
      have hstep : mapGet ((p :: rest).map fun q => if q.1 = k then (k, v) else q) k
          = mapGet (rest.map fun q => if q.1 = k then (k, v) else q) k := by
        unfold mapGet
        rw [List.map_cons, List.find?_cons_of_neg]
        simp [hp]
      rw [hstep]
      exact ih h2

theorem mapGet_mapInsert_self (m : NodeMap) (k : String) (v : TreeNode) :
    mapGet (mapInsert m k v) k = some v := by
  unfold mapInsert
  split
  · next h => exact mapGet_replace_self h
  · next h =>
    exact mapGet_append_self (by revert h; cases mapContains m k <;> simp)

theorem iterAdvance_spec (m : NodeMap) (node : Dependency) :
    ∀ (k : Nat) (remaining : List String) (i : Nat), k ≤ remaining.length →
      iterAdvance m ⟨node, remaining, i⟩ k = ⟨node, remaining.drop k, i + k⟩ := by
  intro k
  induction k with
  | zero =>
    intro remaining i h
    simp [iterAdvance]
  | succ k ih =>
    intro remaining i h
    cases remaining with
    | nil => exact absurd h (by simp)
    | cons d rest =>
      unfold iterAdvance iterNext
      dsimp only
      rw [ih rest (i + 1) (Nat.le_of_succ_le_succ h)]
      congr 1
      omega

theorem splitDepth_some_ne_zero {line : String} {depth : Nat} {rest : String}
    (h : splitDepth line = some (depth, rest)) : ¬ line.length = 0 := by
  intro h0
  have hd : line.data = [] := List.eq_nil_of_length_eq_zero h0
  unfold splitDepth at h
  rw [hd] at h
  simp at h

/-! ## Lemmas about the layout functions -/

theorem f32_as_u8_natCast (d : Nat) : f32_as_u8 (d : ℚ) = min 255 d := by
  unfold f32_as_u8
  rw [if_neg (not_lt.2 (by positivity))]
  simp

/-- The blend of node_color at the two transition endpoints, for an active
node: channel-wise minimum at 0 and channel-wise maximum at 1. -/
theorem node_color_active_endpoints (name : String) (r g b : Nat)
    (completed active : List String)
    (hr : r ≤ 255) (hg : g ≤ 255) (hb : b ≤ 255) (hmem : name ∈ active) :
    node_color name (r, g, b) completed active 0 =
      (min r 152, min g 251, min b 152) ∧
    node_color name (r, g, b) completed active 1 =
      (max r 152, max g 251, max b 152) := by
  unfold node_color
  rw [if_pos hmem, if_pos hmem]
  simp only [mul_zero, mul_one, f32_as_u8_natCast]
  constructor
  · simp [f32_as_u8]
  · simp
    omega

/-- The head of the circle list of draw_tree is the node itself, colored by
node_color. -/
theorem draw_tree_head (cosf sinf sqrtf : ℚ → ℚ) (center : Point)
    (t : DrawTreeNode) (radius phase : ℚ) (depth : Nat) (sky pa : ℚ)
    (color : Color) (completed active : List String) (transition : ℚ)
    (d : DrawCrate) :
    ((draw_tree cosf sinf sqrtf center t radius phase depth sky pa color
      completed active transition).1.headD d) =
      ⟨center, radius, node_color t.name color completed active transition,
        t.name, t⟩ := by
  simp [draw_tree]

theorem draw_sats_nil_left (cosf sinf sqrtf : ℚ → ℚ) (center : Point)
    (radius new_radius : ℚ) (depth : Nat) (phase_accum : ℚ)
    (completed active : List String) (transition : ℚ)
    (childs : List DrawTreeNode) :
    draw_sats cosf sinf sqrtf center radius new_radius depth phase_accum
      completed active transition [] childs = ([], []) := by
  cases childs <;> simp [draw_sats]

theorem draw_sats_nil_right (cosf sinf sqrtf : ℚ → ℚ) (center : Point)
    (radius new_radius : ℚ) (depth : Nat) (phase_accum : ℚ)
    (completed active : List String) (transition : ℚ) (sat : Point × ℚ)
    (sats : List (Point × ℚ)) :
    draw_sats cosf sinf sqrtf center radius new_radius depth phase_accum
      completed active transition (sat :: sats) [] = ([], []) := by
  obtain ⟨pt, θ⟩ := sat
  simp [draw_sats]

/-- One unfolding of the child loop: the first child contributes its own
recursive output (receiving the inner sky constant) and an edge line. -/
theorem draw_sats_cons (cosf sinf sqrtf : ℚ → ℚ) (center : Point)
    (radius new_radius : ℚ) (depth : Nat) (phase_accum : ℚ)
    (completed active : List String) (transition : ℚ) (sat : Point × ℚ)
    (sats : List (Point × ℚ)) (child : DrawTreeNode)
    (restc : List DrawTreeNode) :
    draw_sats cosf sinf sqrtf center radius new_radius depth phase_accum
      completed active transition (sat :: sats) (child :: restc) =
      (let child_center : Point :=
        if child.children.length < 5 then sat.1
        else
          (sat.1.1 + new_radius * cosf sat.2 * (3 / 2),
           sat.1.2 + new_radius * sinf sat.2 * (3 / 2))
       let sub := draw_tree cosf sinf sqrtf child_center child new_radius
         sat.2 (depth + 1)
         (if child.children.length < 5 then PI32 / 2 else PI32 * (3 / 2))
         phase_accum child.color completed active transition
       let rest := draw_sats cosf sinf sqrtf center radius new_radius depth
         phase_accum completed active transition sats restc
       (sub.1 ++ rest.1,
        (⟨(center.1 + cosf sat.2 * radius, center.2 + sinf sat.2 * radius),
          (child_center.1 - cosf sat.2 * new_radius,
           child_center.2 - sinf sat.2 * new_radius),
          (255, 255, 255)⟩ :: sub.2) ++ rest.2)) := by
  obtain ⟨pt, θ⟩ := sat
  simp [draw_sats]

theorem range_map_getD {α : Type} (f : Nat → α) (n i : Nat) (h : i < n) (d : α) :
    ((List.range n).map f).getD i d = f i := by
  simp [List.getD_eq_getElem?_getD, List.getElem?_map, List.getElem?_range h]

theorem ceil_one_half : (⌈(1 : ℚ) / 2⌉ : ℤ) = 1 := by
  rw [Int.ceil_eq_iff] <;> norm_num

/-! ## The claims -/

/-- C1 (counterexample): the five-line single-project input cycInput is
accepted by the parser, yet the resulting children relation contains a node
that is its own transitive child (a 1 reaches itself through b 1), refuting
the stated no-cycles invariant. -/
theorem c1_counterexample :
    (buildTree cycInput).isSome = true ∧
    hasTransSelfChild (buildTree cycInput) = true := by
  decide

/-- C1 (amended): for every input accepted by the parser, every map entry is
keyed by its node name and no node lists its own name among its children;
transitive cycles in the children relation, however, are possible. -/
theorem c1_no_self_listing (ls : List String) (root : String) (m : NodeMap)
    (h : buildTree ls = some (root, m)) :
    ∀ p ∈ m, p.2.name = p.1 ∧ p.1 ∉ p.2.children :=
  (buildTree_good h).2.1

/-- Witness for c1_no_self_listing at a concrete accepted input. -/
theorem c1_no_self_listing_witness :
    buildTree ["0 a v1"] = some ("a 1", [("a 1", ⟨"a 1", []⟩)]) ∧
    ∀ p ∈ [("a 1", (⟨"a 1", []⟩ : TreeNode))],
      p.2.name = p.1 ∧ p.1 ∉ p.2.children :=
  ⟨by decide, c1_no_self_listing ["0 a v1"] "a 1" [("a 1", ⟨"a 1", []⟩)]
    (by decide)⟩

/-- C2 (counterexample): for base color (255, 0, 0), an active leaf node and
transition 0, the emitted color is (152, 0, 0) — the channel-wise minimum
with the highlight color — and not the base color required by the claim. -/
theorem c2_counterexample :
    ((draw_tree zeroFn zeroFn zeroFn (0, 0) (.mk "x" (0, 0, 0) []) 1 0 0 4 0
      (255, 0, 0) [] ["x"] 0).1.headD dummyCrate).color = (152, 0, 0) ∧
    ((draw_tree zeroFn zeroFn zeroFn (0, 0) (.mk "x" (0, 0, 0) []) 1 0 0 4 0
      (255, 0, 0) [] ["x"] 0).1.headD dummyCrate).color ≠ (255, 0, 0) := by
  constructor <;>
    simp [draw_tree, draw_sats, get_satellites, f32_as_u8, DrawTreeNode.name,
      node_color]

/-- C2 (amended): for a base color with channels at most 255 and a node whose
name is in the active set, the color draw_tree emits for that node is the
channel-wise minimum of base and highlight at transition 0 and the
channel-wise maximum at transition 1; these equal the base color resp. the
highlight color exactly when each base channel is at most the corresponding
highlight channel. -/
theorem c2_blend_endpoints (cosf sinf sqrtf : ℚ → ℚ) (center : Point)
    (t : DrawTreeNode) (radius phase : ℚ) (depth : Nat) (sky pa : ℚ)
    (r g b : Nat) (completed active : List String)
    (hr : r ≤ 255) (hg : g ≤ 255) (hb : b ≤ 255) (hmem : t.name ∈ active) :
    ((draw_tree cosf sinf sqrtf center t radius phase depth sky pa (r, g, b)
      completed active 0).1.headD dummyCrate).color =
      (min r 152, min g 251, min b 152) ∧
    ((draw_tree cosf sinf sqrtf center t radius phase depth sky pa (r, g, b)
      completed active 1).1.headD dummyCrate).color =
      (max r 152, max g 251, max b 152) := by
  rw [draw_tree_head, draw_tree_head]
  exact node_color_active_endpoints t.name r g b completed active hr hg hb hmem

/-- Witness for c2_blend_endpoints at a concrete input. -/
theorem c2_blend_endpoints_witness :
    10 ≤ 255 ∧ (DrawTreeNode.mk "x" (0, 0, 0) []).name ∈ ["x"] ∧
    (((draw_tree zeroFn zeroFn zeroFn (0, 0) (.mk "x" (0, 0, 0) []) 1 0 0 4 0
        (10, 20, 30) [] ["x"] 0).1.headD dummyCrate).color =
      (min 10 152, min 20 251, min 30 152) ∧
    ((draw_tree zeroFn zeroFn zeroFn (0, 0) (.mk "x" (0, 0, 0) []) 1 0 0 4 0
        (10, 20, 30) [] ["x"] 1).1.headD dummyCrate).color =
      (max 10 152, max 20 251, max 30 152)) :=
  ⟨by norm_num, by simp [DrawTreeNode.name],
    c2_blend_endpoints zeroFn zeroFn zeroFn (0, 0) (.mk "x" (0, 0, 0) []) 1 0 0
      4 0 10 20 30 [] ["x"] (by norm_num) (by norm_num) (by norm_num)
      (by simp [DrawTreeNode.name])⟩

/-- C3 (counterexample): for the two-level tree nodeP (one child nodeC with
two grandchildren, every fan-out below 5), the circle list of draw_tree
differs from the list the claim predicts — the parent circle followed by the
output of the recursive call on nodeC with a half-turn budget PI32: the
recursive call actually receives the quarter turn PI32 / 2, which moves the
second grandchild. -/
theorem c3_counterexample :
    (draw_tree idFn idFn idFn (0, 0) nodeP 1 0 0 4 0 (0, 0, 0) [] [] 0).1 ≠
      ⟨(0, 0), 1, (0, 0, 0), "p", nodeP⟩ ::
        (draw_tree idFn idFn idFn (0, 0) nodeC (7 / 10) 0 1 PI32 0 (3, 3, 3)
          [] [] 0).1 := by
  intro hcontra
  have h1 : ((draw_tree idFn idFn idFn (0, 0) nodeP 1 0 0 4 0 (0, 0, 0) [] []
      0).1.getD 3 dummyCrate).center =
      (-18447513 / 16777216, -18447513 / 16777216) := by
    norm_num [draw_tree, draw_sats_cons, draw_sats_nil_left,
      draw_sats_nil_right, get_satellites, PI32, List.range_succ,
      DrawTreeNode.children, DrawTreeNode.name, DrawTreeNode.color, node_color,
      nodeP, nodeC, leafG1, leafG2, idFn, ceil_one_half]
  have h2 : ((⟨(0, 0), 1, (0, 0, 0), "p", nodeP⟩ ::
      (draw_tree idFn idFn idFn (0, 0) nodeC (7 / 10) 0 1 PI32 0 (3, 3, 3) []
        [] 0).1).getD 3 dummyCrate).center =
      (-18447513 / 8388608, -18447513 / 8388608) := by
    norm_num [draw_tree, draw_sats_cons, draw_sats_nil_left,
      draw_sats_nil_right, get_satellites, PI32, List.range_succ,
      DrawTreeNode.children, DrawTreeNode.name, DrawTreeNode.color, node_color,
      nodeC, leafG1, leafG2, idFn, ceil_one_half]
  rw [hcontra, h2] at h1
  exact absurd h1 (by norm_num)

/-- C3 (amended): in the child loop of draw_tree, the angular budget handed
to the recursive call for a child is the QUARTER turn PI32 / 2 when the child
has fewer than 5 children and three quarter turns PI32 * 1.5 otherwise; the
unfolding below fixes the exact recursive call for the child at the head of
the loop. -/
theorem c3_child_sky (cosf sinf sqrtf : ℚ → ℚ) (center : Point)
    (radius new_radius : ℚ) (depth : Nat) (phase_accum : ℚ)
    (completed active : List String) (transition : ℚ) (sat : Point × ℚ)
    (satsRest : List (Point × ℚ)) (child : DrawTreeNode)
    (childRest : List DrawTreeNode) :
    draw_sats cosf sinf sqrtf center radius new_radius depth phase_accum
      completed active transition (sat :: satsRest) (child :: childRest) =
      (let child_center : Point :=
        if child.children.length < 5 then sat.1
        else
          (sat.1.1 + new_radius * cosf sat.2 * (3 / 2),
           sat.1.2 + new_radius * sinf sat.2 * (3 / 2))
       let sub := draw_tree cosf sinf sqrtf child_center child new_radius
         sat.2 (depth + 1)
         (if child.children.length < 5 then PI32 / 2 else PI32 * (3 / 2))
         phase_accum child.color completed active transition
       let rest := draw_sats cosf sinf sqrtf center radius new_radius depth
         phase_accum completed active transition satsRest childRest
       (sub.1 ++ rest.1,
        (⟨(center.1 + cosf sat.2 * radius, center.2 + sinf sat.2 * radius),
          (child_center.1 - cosf sat.2 * new_radius,
           child_center.2 - sinf sat.2 * new_radius),
          (255, 255, 255)⟩ :: sub.2) ++ rest.2)) := by
  obtain ⟨pt, θ⟩ := sat
  simp [draw_sats]

/-- C4 (counterexample): with amount 2, phase 0 and sky 4, the satellite of
ordinal 1 sits at angle -2 = phase - 1 * (sky / amount), not at +2 as the
claimed sign sequence 0, +1, -1, +2, ... requires. -/
theorem c4_counterexample :
    ((get_satellites zeroFn zeroFn zeroFn (0, 0) 1 1 2 0 4).2.getD 1
      dummySat).2 = -2 ∧
    ((get_satellites zeroFn zeroFn zeroFn (0, 0) 1 1 2 0 4).2.getD 1
      dummySat).2 ≠ 0 + 1 * (4 / 2) := by
  norm_num [get_satellites, List.range_succ, ceil_one_half, dummySat, zeroFn]

/-- C4 (amended): satellite i (i < amount) of get_satellites sits at angle
phase + s_i * (sky / amount), where s_i has magnitude the ceiling of half of
i and carries the PLUS sign for even ordinals (ordinal 0 included, whose
magnitude is 0) and the MINUS sign for odd ordinals — the sequence
0, -1, +1, -2, +2, ... — and its point is the center displaced by in_radius
along (cos angle, sin angle). -/
theorem c4_satellite_positions (cosf sinf sqrtf : ℚ → ℚ) (center : Point)
    (rr ir : ℚ) (amount : Nat) (phase sky : ℚ) (i : Nat) (h : i < amount) :
    (get_satellites cosf sinf sqrtf center rr ir amount phase sky).2.getD i
      dummySat =
      (let angle := phase +
        ((⌈(i : ℚ) / 2⌉ * (if i % 2 = 0 then 1 else -1) : ℤ) : ℚ) *
          (sky / (amount : ℚ))
       ((center.1 + cosf angle * ir, center.2 + sinf angle * ir), angle)) := by
  simp only [get_satellites, dummySat]
  rw [range_map_getD _ _ _ h]

/-- Witness for c4_satellite_positions at a concrete input. -/
theorem c4_satellite_positions_witness :
    1 < 2 ∧
    ((get_satellites zeroFn zeroFn zeroFn (0, 0) 1 1 2 0 4).2.getD 1
      dummySat).2 =
      0 + ((⌈((1 : Nat) : ℚ) / 2⌉ * (if (1 : Nat) % 2 = 0 then 1 else -1) : ℤ) : ℚ) *
        (4 / ((2 : Nat) : ℚ)) :=
  ⟨by norm_num, by
    rw [c4_satellite_positions zeroFn zeroFn zeroFn (0, 0) 1 1 2 0 4 1
      (by norm_num)]⟩

/-- C5 (counterexample): on the two-project input the roots complete in the
order a 1 then b 1, and reversing that order is an admissible enumeration of
the collected children HashSet — duplicate-free, exactly the two elements —
yet under it the workspace children do not appear in completion order: the
program fixes only the set of children, not their order. -/
theorem c5_counterexample :
    finalRoots twoRootInput = some ["a 1", "b 1"] ∧
    revEnum ["a 1", "b 1"] = ["b 1", "a 1"] ∧
    (revEnum ["a 1", "b 1"]).Nodup ∧
    "a 1" ∈ revEnum ["a 1", "b 1"] ∧ "b 1" ∈ revEnum ["a 1", "b 1"] ∧
    (revEnum ["a 1", "b 1"]).length = 2 ∧
    buildTreeWith revEnum twoRootInput =
      some ("workspace",
        [("a 1", ⟨"a 1", []⟩), ("b 1", ⟨"b 1", []⟩),
         ("workspace", ⟨"workspace", ["b 1", "a 1"]⟩)]) ∧
    (["b 1", "a 1"] : List String) ≠ ["a 1", "b 1"] := by
  decide

/-- C5 (amended): when the completed root candidates rs are pairwise distinct
and more than one, then under every admissible enumeration of the collected
children HashSet (a duplicate-free list of exactly the drained candidates)
the built tree is rooted at the synthesized node workspace whose children
are that enumeration — a permutation of rs, hence exactly N children, one
per original root, in an arbitrary implementation-defined order rather than
necessarily the completion order. -/
theorem c5_workspace_root (collect : List String → List String)
    (ls rs : List String)
    (hfr : finalRoots ls = some rs) (hnd : rs.Nodup) (hlen : 1 < rs.length)
    (hcnd : (collect rs).Nodup) (hcm : ∀ x, x ∈ collect rs ↔ x ∈ rs) :
    ∃ m, buildTreeWith collect ls = some ("workspace", m) ∧
      mapGet m "workspace" = some ⟨"workspace", collect rs⟩ ∧
      (collect rs).Perm rs := by
  have hperm : (collect rs).Perm rs :=
    (List.perm_ext_iff_of_nodup hcnd hnd).mpr hcm
  unfold finalRoots at hfr
  rcases hrun : runLines initState ls with _ | s <;> rw [hrun] at hfr
  · cases hfr
  · have he : s.roots ++ s.stack.take 1 = rs := by
      simpa using hfr
    unfold buildTreeWith
    rw [hrun]
    dsimp only
    rw [he]
    cases rs with
    | nil => simp at hlen
    | cons r1 rs2 =>
      cases rs2 with
      | nil => simp at hlen
      | cons r2 rs3 =>
        refine ⟨_, rfl, ?_, hperm⟩
        exact mapGet_mapInsert_self s.map "workspace"
          ⟨"workspace", collect (r1 :: r2 :: rs3)⟩

/-- Witness for c5_workspace_root on a two-project input, instantiated at the
first-insertion enumeration. -/
theorem c5_workspace_root_witness :
    finalRoots twoRootInput = some ["a 1", "b 1"] ∧
    (["a 1", "b 1"] : List String).Nodup ∧
    1 < (["a 1", "b 1"] : List String).length ∧
    (hsOfList ["a 1", "b 1"]).Nodup ∧
    (∃ m, buildTreeWith hsOfList twoRootInput = some ("workspace", m) ∧
      mapGet m "workspace" = some ⟨"workspace", hsOfList ["a 1", "b 1"]⟩ ∧
      (hsOfList ["a 1", "b 1"]).Perm ["a 1", "b 1"]) :=
  ⟨by decide, by decide, by decide, by decide,
    c5_workspace_root hsOfList twoRootInput ["a 1", "b 1"] (by decide)
      (by decide) (by decide) (by decide)
      (fun x => by rw [show hsOfList ["a 1", "b 1"] = ["a 1", "b 1"] from by decide])⟩

/-- C6 (counterexample): after the first (and only) child of a node has been
yielded, the iterator index method reports some 0, not the 1-based value
some 1. -/
theorem c6_counterexample :
    (iterAdvance [("c 1", ⟨"c 1", []⟩)] (intoIter ⟨"p 1", ["c 1"]⟩)
      1).indexVal = some 0 ∧
    (iterAdvance [("c 1", ⟨"c 1", []⟩)] (intoIter ⟨"p 1", ["c 1"]⟩)
      1).indexVal ≠ some 1 := by
  decide

/-- C6 (amended): after the k-th child has been yielded (1 ≤ k ≤ child
count), the index method reports some (k - 1) — the 0-based ordinal of that
child — and the len method reports the child count of the node. -/
theorem c6_iterator_index (m : NodeMap) (d : Dependency) (k : Nat)
    (h1 : 1 ≤ k) (h2 : k ≤ d.children.length) :
    (iterAdvance m (intoIter d) k).indexVal = some (k - 1) ∧
    (iterAdvance m (intoIter d) k).lenVal = d.children.length := by
  unfold intoIter
  rw [iterAdvance_spec m d k d.children 0 h2]
  constructor
  · dsimp only [DependencyIterator.indexVal]
    rw [if_neg (by omega)]
    congr 1
    omega
  · rfl

/-- Witness for c6_iterator_index at a concrete input. -/
theorem c6_iterator_index_witness :
    1 ≤ 1 ∧ 1 ≤ (Dependency.mk "p 1" ["c 1"]).children.length ∧
    ((iterAdvance [] (intoIter ⟨"p 1", ["c 1"]⟩) 1).indexVal = some (1 - 1) ∧
     (iterAdvance [] (intoIter ⟨"p 1", ["c 1"]⟩) 1).lenVal =
       (Dependency.mk "p 1" ["c 1"]).children.length) :=
  ⟨by norm_num, by decide,
    c6_iterator_index [] ⟨"p 1", ["c 1"]⟩ 1 (by norm_num) (by decide)⟩

/-- C7: a data line whose computed identity already lies on the ancestor
stack truncated to the line depth is skipped entirely: the step succeeds (no
error), the node map and the root candidates are unchanged, and the stack is
only truncated, never grown. -/
theorem c7_cycle_guard_skips (s : PState) (line : String) (depth : Nat)
    (rest dep : String)
    (h1 : splitDepth line = some (depth, rest))
    (h2 : depth ≤ s.stack.length)
    (h3 : crate_name_from_package_id rest = some dep)
    (h4 : dep ∈ s.stack.take depth) :
    stepLine s line = some { s with stack := s.stack.take depth } ∧
    (s.stack.take depth).length ≤ s.stack.length := by
  have hne : ¬ line.length = 0 := splitDepth_some_ne_zero h1
  have hstk : s.stack.isEmpty = false := by
    cases hs : s.stack with
    | nil =>
      rw [hs] at h4
      simp at h4
    | cons a t => rfl
  constructor
  · simp [stepLine, hne, h1, h3, hstk, h4, not_lt.2 h2]
  · simpa using List.length_take_le depth s.stack

/-- Witness for c7_cycle_guard_skips at a concrete state and line. -/
theorem c7_cycle_guard_skips_witness :
    splitDepth "1 a v1" = some (1, " a v1") ∧
    crate_name_from_package_id " a v1" = some "a 1" ∧
    ("a 1" ∈ oneNodeState.stack.take 1) ∧
    (stepLine oneNodeState "1 a v1" =
      some { oneNodeState with stack := oneNodeState.stack.take 1 } ∧
     (oneNodeState.stack.take 1).length ≤ oneNodeState.stack.length) :=
  ⟨by decide, by decide, by decide,
    c7_cycle_guard_skips oneNodeState "1 a v1" 1 " a v1" "a 1" (by decide)
      (by decide) (by decide) (by decide)⟩

/-- C8: the concrete three-line scenario parses to a tree rooted at
foo 1.0.0 with exactly the two children bar 2.0.0 and baz 0.3.0, each of
which has no children. -/
theorem c8_concrete_scenario :
    buildTree (linesOf exInput) =
      some ("foo 1.0.0",
        [("foo 1.0.0", ⟨"foo 1.0.0", ["bar 2.0.0", "baz 0.3.0"]⟩),
         ("bar 2.0.0", ⟨"bar 2.0.0", []⟩),
         ("baz 0.3.0", ⟨"baz 0.3.0", []⟩)]) := by
  decide

/-- C9: in every successfully built tree the designated root is a key of the
node map and every name in any children set is a key of the map, so the root
accessor and the unguarded map index inside the child iterator never fail. -/
theorem c9_closed_graph (ls : List String) (root : String) (m : NodeMap)
    (h : buildTree ls = some (root, m)) :
    (mapGet m root).isSome = true ∧
    ∀ p ∈ m, ∀ c ∈ p.2.children, (mapGet m c).isSome = true := by
  obtain ⟨hroot, _, hclosed⟩ := buildTree_good h
  refine ⟨?_, ?_⟩
  · rw [mapGet_isSome_eq]
    exact hroot
  · intro p hp c hc
    rw [mapGet_isSome_eq]
    exact hclosed p hp c hc

/-- Witness for c9_closed_graph at a concrete accepted input. -/
theorem c9_closed_graph_witness :
    buildTree ["0 a v1", "1 b v1"] =
      some ("a 1", [("a 1", ⟨"a 1", ["b 1"]⟩), ("b 1", ⟨"b 1", []⟩)]) ∧
    ((mapGet [("a 1", ⟨"a 1", ["b 1"]⟩), ("b 1", ⟨"b 1", []⟩)] "a 1").isSome
        = true ∧
      ∀ p ∈ [("a 1", (⟨"a 1", ["b 1"]⟩ : TreeNode)),
        ("b 1", (⟨"b 1", []⟩ : TreeNode))], ∀ c ∈ p.2.children,
        (mapGet [("a 1", ⟨"a 1", ["b 1"]⟩), ("b 1", ⟨"b 1", []⟩)] c).isSome
          = true) :=
  ⟨by decide, c9_closed_graph ["0 a v1", "1 b v1"] "a 1"
    [("a 1", ⟨"a 1", ["b 1"]⟩), ("b 1", ⟨"b 1", []⟩)] (by decide)⟩

/-- C10: a line with a well-formed digit depth prefix whose identifier part
contains no space defeats the identity transform: crate_name_from_package_id
is not total there (the source indexes the split result out of bounds), and
the parsing step fails although the depth parsed. -/
theorem c10_identity_not_total :
    splitDepth "0foo" = some (0, "foo") ∧
    crate_name_from_package_id "foo" = none ∧
    stepLine initState "0foo" = none := by
  decide

end Treebuild
